import Mathlib

/-!
Shallow embedding of `src/main.rs` (crate `graphs-rs`): a generic doubly
linked list stored in a growable slot array (arena) with a free-list for
O(1) slot reuse.  Every Rust panic — `panic!("expected free slot")`,
`panic!("expected used slot")` in the `Slot` accessors, index out of
bounds on `self.slots[pos]`, and `usize` underflow — is modelled by
`Option`: `none` is an abort, `some` a normal result.  Machine `usize`
values are modelled as `Nat`; no arithmetic here can overflow a real
`usize` before memory is exhausted, and none of the claims concern
overflow.
-/

namespace ArenaList

/-- Slot of the backing store (src/main.rs 3-6): `Free` holds the next
free slot index (or `none` at the end of the free-list), `Used` holds a
live payload. -/
inductive Slot (α : Type u) where
  | Free : Option Nat → Slot α
  | Used : α → Slot α
  deriving DecidableEq

/-- Rust `Slot::as_free` / `as_free_mut` / `into_free` (src/main.rs 9-28):
the stored next-free index, aborting (`none`) on a used slot. -/
def Slot.as_free? : Slot α → Option (Option Nat)
  | .Free pos => some pos
  | _ => none

/-- Rust `Slot::as_used` / `as_used_mut` / `into_used` (src/main.rs 30-49):
the payload, aborting (`none`) on a free slot. -/
def Slot.as_used? : Slot α → Option α
  | .Used val => some val
  | _ => none

/-- List node (src/main.rs 52-56): `prev`/`next` are slot indices into the
store, absent at the boundary. -/
structure LinkedListNode (T : Type u) where
  prev : Option Nat
  next : Option Nat
  val : T
  deriving DecidableEq

/-- The list (src/main.rs 58-64). -/
structure LinkedList (T : Type u) where
  size : Nat
  head : Option Nat
  tail : Option Nat
  free : Option Nat
  slots : List (Slot (LinkedListNode T))
  deriving DecidableEq

/-- `LinkedList::new` (src/main.rs 103-111). -/
def LinkedList.new (T : Type u) : LinkedList T :=
  { size := 0, head := none, tail := none, free := none, slots := [] }

/-- `LinkedList::size` (src/main.rs 117-119) returns the `size` field; we
use the field itself. `LinkedList::is_empty` (src/main.rs 121-123): -/
def LinkedList.is_empty (l : LinkedList T) : Bool :=
  l.head.isNone

/-- `LinkedList::get_first` (src/main.rs 125-127).  Outer `none` is an
abort, `some none` is user-observable absence. -/
def LinkedList.get_first (l : LinkedList T) : Option (Option T) :=
  match l.head with
  | none => some none
  | some pos => do
      let s ← l.slots[pos]?
      let n ← s.as_used?
      some (some n.val)

/-- `LinkedList::get_last` (src/main.rs 129-131). -/
def LinkedList.get_last (l : LinkedList T) : Option (Option T) :=
  match l.tail with
  | none => some none
  | some pos => do
      let s ← l.slots[pos]?
      let n ← s.as_used?
      some (some n.val)

/-- `LinkedList::insert` (src/main.rs 225-241): place a node into the
store, reusing the free-list head when present, else appending a fresh
slot; returns the chosen index together with the new state.  The `size`
increment happens before the branch, as in the source. -/
def LinkedList.insert (l : LinkedList T) (node : LinkedListNode T) :
    Option (Nat × LinkedList T) :=
  let slot := Slot.Used node
  let l1 : LinkedList T := { l with size := l.size + 1 }
  match l1.free with
  | none => some (l1.slots.length, { l1 with slots := l1.slots ++ [slot] })
  | some curr => do
      let s ← l1.slots[curr]?
      let nf ← s.as_free?
      some (curr, { l1 with free := nf, slots := l1.slots.set curr slot })

/-- `LinkedList::add_first` (src/main.rs 133-152). -/
def LinkedList.add_first (l : LinkedList T) (val : T) : Option (LinkedList T) := do
  let node : LinkedListNode T := { prev := none, next := l.head, val := val }
  let (new_head, l1) ← l.insert node
  match l1.head with
  | none => some { l1 with head := some new_head, tail := some new_head }
  | some old_head => do
      let s ← l1.slots[old_head]?
      let n ← s.as_used?
      some { l1 with
        slots := l1.slots.set old_head (Slot.Used { n with prev := some new_head }),
        head := some new_head }

/-- `LinkedList::add_last` (src/main.rs 154-173). -/
def LinkedList.add_last (l : LinkedList T) (val : T) : Option (LinkedList T) := do
  let node : LinkedListNode T := { prev := l.tail, next := none, val := val }
  let (new_tail, l1) ← l.insert node
  match l1.tail with
  | none => some { l1 with head := some new_tail, tail := some new_tail }
  | some old_tail => do
      let s ← l1.slots[old_tail]?
      let n ← s.as_used?
      some { l1 with
        slots := l1.slots.set old_tail (Slot.Used { n with next := some new_tail }),
        tail := some new_tail }

/-- `LinkedList::remove_first` (src/main.rs 175-198): pop the head value;
`some (none, l)` on the empty list (the `Option::map` is skipped and the
state is untouched). -/
def LinkedList.remove_first (l : LinkedList T) : Option (Option T × LinkedList T) :=
  match l.head with
  | none => some (none, l)
  | some pos => do
      let s0 ← l.slots[pos]?
      let n0 ← s0.as_used?
      let l1 : LinkedList T := { l with head := n0.next }
      let l2 ← match l1.head with
        | none => some { l1 with tail := none }
        | some new_head => do
            let s2 ← l1.slots[new_head]?
            let n2 ← s2.as_used?
            some { l1 with slots := l1.slots.set new_head (Slot.Used { n2 with prev := none }) }
      let slot ← l2.slots[pos]?
      let n ← slot.as_used?
      some (some n.val,
        { l2 with
          slots := l2.slots.set pos (Slot.Free l2.free),
          free := some pos,
          size := l2.size - 1 })

/-- `LinkedList::remove_last` (src/main.rs 200-223), the mirror image. -/
def LinkedList.remove_last (l : LinkedList T) : Option (Option T × LinkedList T) :=
  match l.tail with
  | none => some (none, l)
  | some pos => do
      let s0 ← l.slots[pos]?
      let n0 ← s0.as_used?
      let l1 : LinkedList T := { l with tail := n0.prev }
      let l2 ← match l1.tail with
        | none => some { l1 with head := none }
        | some new_tail => do
            let s2 ← l1.slots[new_tail]?
            let n2 ← s2.as_used?
            some { l1 with slots := l1.slots.set new_tail (Slot.Used { n2 with next := none }) }
      let slot ← l2.slots[pos]?
      let n ← slot.as_used?
      some (some n.val,
        { l2 with
          slots := l2.slots.set pos (Slot.Free l2.free),
          free := some pos,
          size := l2.size - 1 })

/-- The traversal cursor (src/main.rs 66-75); the borrowed list is passed
to `next` explicitly. -/
structure LinkedListIterator (T : Type u) where
  curr : Option Nat
  deriving DecidableEq

/-- `LinkedList::iter` (src/main.rs 113-115): a fresh cursor at `head`. -/
def LinkedList.iter (l : LinkedList T) : LinkedListIterator T :=
  { curr := l.head }

/-- `Iterator::next` for `LinkedListIterator` (src/main.rs 77-91):
`some (none, _)` is iterator exhaustion, outer `none` an abort. -/
def LinkedListIterator.next (it : LinkedListIterator T) (l : LinkedList T) :
    Option (Option T × LinkedListIterator T) :=
  match it.curr with
  | none => some (none, it)
  | some pos => do
      let s ← l.slots[pos]?
      let n ← s.as_used?
      some (some n.val, { curr := n.next })

/-- Full forward traversal: call `next` until it signals exhaustion,
collecting the values.  The Rust loop is unbounded; `fuel` bounds the walk
here, and `none` models either an abort inside `next` or a walk longer
than the fuel (which on a well-formed store cannot happen with fuel
`l.slots.length`). -/
def consume (l : LinkedList T) : LinkedListIterator T → Nat → Option (List T)
  | it, 0 =>
      match it.curr with
      | none => some []
      | some _ => none
  | it, fuel+1 => do
      let (r, it1) ← it.next l
      match r with
      | none => some []
      | some v => do
          let rest ← consume l it1 fuel
          some (v :: rest)

/-- Consume a fresh iterator completely (fuel: the store size, an upper
bound on the length of any repetition-free chain). -/
def LinkedList.iterAll (l : LinkedList T) : Option (List T) :=
  consume l l.iter l.slots.length

/-- One public mutating call. -/
inductive Op (T : Type u) where
  | addFirst : T → Op T
  | addLast : T → Op T
  | removeFirst : Op T
  | removeLast : Op T
  deriving DecidableEq

/-- Run one call, keeping the state (a removed value is dropped). -/
def runOp (l : LinkedList T) : Op T → Option (LinkedList T)
  | .addFirst v => l.add_first v
  | .addLast v => l.add_last v
  | .removeFirst => l.remove_first.map Prod.snd
  | .removeLast => l.remove_last.map Prod.snd

/-- Run a call sequence left to right. -/
def runOps (l : LinkedList T) : List (Op T) → Option (LinkedList T)
  | [] => some l
  | op :: ops => do
      let l1 ← runOp l op
      runOps l1 ops

/-- A state is reachable when some public call sequence builds it from
`LinkedList::new`. -/
def Reachable (l : LinkedList T) : Prop :=
  ∃ ops, runOps (LinkedList.new T) ops = some l

/-- Pop `n` values off the front, requiring every call to yield a value. -/
def drainFirstN (l : LinkedList T) : Nat → Option (List T)
  | 0 => some []
  | n+1 => do
      let (r, l1) ← l.remove_first
      let v ← r
      let rest ← drainFirstN l1 n
      some (v :: rest)

/-- Pop `n` values off the back, requiring every call to yield a value. -/
def drainLastN (l : LinkedList T) : Nat → Option (List T)
  | 0 => some []
  | n+1 => do
      let (r, l1) ← l.remove_last
      let v ← r
      let rest ← drainLastN l1 n
      some (v :: rest)

/-- The value-sequence abstraction of one public call. -/
def modelOp (xs : List T) : Op T → List T
  | .addFirst v => v :: xs
  | .addLast v => xs ++ [v]
  | .removeFirst => xs.tail
  | .removeLast => xs.dropLast

/-- Whether a call is an insertion. -/
def Op.isAdd : Op T → Bool
  | .addFirst _ => true
  | .addLast _ => true
  | _ => false

/-- Whether a call is a removal. -/
def Op.isRemove : Op T → Bool
  | .removeFirst => true
  | .removeLast => true
  | _ => false

end ArenaList

namespace ArenaList

/-- `Chain slots p c ps last`: starting at cursor `c`, whose node must
record `prev = p`, the store holds a doubly linked chain visiting the
index/value pairs `ps` in order; `last` is the index of the final node
(`p` itself when `ps` is empty, so a full chain from `none`/`head` ends
exactly at `tail`). -/
inductive Chain (slots : List (Slot (LinkedListNode T))) :
    Option Nat → Option Nat → List (Nat × T) → Option Nat → Prop where
  | nil (p : Option Nat) : Chain slots p none [] p
  | cons (p : Option Nat) (i : Nat) (n : LinkedListNode T) (ps : List (Nat × T))
      (last : Option Nat) (hget : slots[i]? = some (Slot.Used n))
      (hprev : n.prev = p) (htail : Chain slots (some i) n.next ps last) :
      Chain slots p (some i) ((i, n.val) :: ps) last

/-- `FChain slots f fs`: the free-list starting at `f` threads through
exactly the indices `fs` (most recently freed first). -/
inductive FChain (slots : List (Slot (LinkedListNode T))) :
    Option Nat → List Nat → Prop where
  | nil : FChain slots none []
  | cons (i : Nat) (nf : Option Nat) (fs : List Nat)
      (hget : slots[i]? = some (Slot.Free nf)) (htail : FChain slots nf fs) :
      FChain slots (some i) (i :: fs)

/-- The state invariant: `ps` are the chain's index/value pairs, `fs` the
free stack, and together they cover the store exactly once. -/
structure Inv (l : LinkedList T) (ps : List (Nat × T)) (fs : List Nat) : Prop where
  chain : Chain l.slots none l.head ps l.tail
  fchain : FChain l.slots l.free fs
  size_eq : l.size = ps.length
  cover : (ps.map Prod.fst ++ fs).Perm (List.range l.slots.length)

/-- A chain only looks at the store through the slots it visits. -/
theorem Chain.congr {slots slots2 : List (Slot (LinkedListNode T))}
    {p c : Option Nat} {ps : List (Nat × T)} {last : Option Nat}
    (h : Chain slots p c ps last)
    (hs : ∀ i ∈ ps.map Prod.fst, slots2[i]? = slots[i]?) :
    Chain slots2 p c ps last := by
  induction h with
  | nil p => exact .nil p
  | cons p i n ps last hget hprev htail ih =>
      refine .cons p i n ps last ?_ hprev (ih fun j hj => hs j (by simp [hj]))
      rw [hs i (by simp)]
      exact hget

/-- A free chain only looks at the store through the slots it visits. -/
theorem FChain.congr_free {slots slots2 : List (Slot (LinkedListNode T))}
    {f : Option Nat} {fs : List Nat}
    (h : FChain slots f fs)
    (hs : ∀ i ∈ fs, slots2[i]? = slots[i]?) :
    FChain slots2 f fs := by
  induction h with
  | nil => exact .nil
  | cons i nf fs hget htail ih =>
      refine .cons i nf fs ?_ (ih fun j hj => hs j (by simp [hj]))
      rw [hs i (by simp)]
      exact hget

/-- Writing outside a chain leaves it intact. -/
theorem Chain.set_ne {slots : List (Slot (LinkedListNode T))}
    {p c : Option Nat} {ps : List (Nat × T)} {last : Option Nat}
    (h : Chain slots p c ps last) {j : Nat} (s : Slot (LinkedListNode T))
    (hj : j ∉ ps.map Prod.fst) :
    Chain (slots.set j s) p c ps last :=
  h.congr fun i hi => List.getElem?_set_ne (by rintro rfl; exact hj hi)

/-- Writing outside a free chain leaves it intact. -/
theorem FChain.set_ne_free {slots : List (Slot (LinkedListNode T))}
    {f : Option Nat} {fs : List Nat}
    (h : FChain slots f fs) {j : Nat} (s : Slot (LinkedListNode T))
    (hj : j ∉ fs) :
    FChain (slots.set j s) f fs :=
  h.congr_free fun i hi => List.getElem?_set_ne (by rintro rfl; exact hj hi)

/-- Growing the store leaves a chain intact. -/
theorem Chain.append {slots : List (Slot (LinkedListNode T))}
    {p c : Option Nat} {ps : List (Nat × T)} {last : Option Nat}
    (h : Chain slots p c ps last) (ext : List (Slot (LinkedListNode T))) :
    Chain (slots ++ ext) p c ps last := by
  induction h with
  | nil p => exact .nil p
  | cons p i n ps last hget hprev htail ih =>
      refine .cons p i n ps last ?_ hprev ih
      rw [List.getElem?_append_left (List.getElem?_eq_some.mp hget).1]
      exact hget

/-- Growing the store leaves a free chain intact. -/
theorem FChain.append_free {slots : List (Slot (LinkedListNode T))}
    {f : Option Nat} {fs : List Nat}
    (h : FChain slots f fs) (ext : List (Slot (LinkedListNode T))) :
    FChain (slots ++ ext) f fs := by
  induction h with
  | nil => exact .nil
  | cons i nf fs hget htail ih =>
      refine .cons i nf fs ?_ ih
      rw [List.getElem?_append_left (List.getElem?_eq_some.mp hget).1]
      exact hget

/-- Every index a chain visits holds a used slot with the chained value. -/
theorem Chain.mem_get {slots : List (Slot (LinkedListNode T))}
    {p c : Option Nat} {ps : List (Nat × T)} {last : Option Nat}
    (h : Chain slots p c ps last) {i : Nat} (hi : i ∈ ps.map Prod.fst) :
    ∃ n, slots[i]? = some (Slot.Used n) := by
  induction h with
  | nil p => simp at hi
  | cons p j n ps last hget hprev htail ih =>
      rcases (by simpa using hi : i = j ∨ i ∈ ps.map Prod.fst) with rfl | hi2
      · exact ⟨n, hget⟩
      · exact ih hi2

/-- Chain indices are in bounds. -/
theorem Chain.mem_lt {slots : List (Slot (LinkedListNode T))}
    {p c : Option Nat} {ps : List (Nat × T)} {last : Option Nat}
    (h : Chain slots p c ps last) {i : Nat} (hi : i ∈ ps.map Prod.fst) :
    i < slots.length := by
  obtain ⟨n, hn⟩ := h.mem_get hi
  exact (List.getElem?_eq_some.mp hn).1

/-- The shape of a chain's far end: either it is empty, or its last pair
carries `last`, whose node is used and has no successor. -/
theorem Chain.last_spec {slots : List (Slot (LinkedListNode T))}
    {p c : Option Nat} {ps : List (Nat × T)} {last : Option Nat}
    (h : Chain slots p c ps last) :
    (ps = [] ∧ c = none ∧ last = p) ∨
    (∃ qs t n, ps = qs ++ [(t, n.val)] ∧ last = some t ∧
      slots[t]? = some (Slot.Used n) ∧ n.next = none) := by
  induction h with
  | nil p => exact .inl ⟨rfl, rfl, rfl⟩
  | cons p i n ps last hget hprev htail ih =>
      right
      rcases ih with ⟨hps, hc, hlast⟩ | ⟨qs, t, m, hps, hlast, hget2, hnext⟩
      · subst hps
        exact ⟨[], i, n, by simp, hlast.symm ▸ rfl, hget, hc⟩
      · exact ⟨(i, n.val) :: qs, t, m, by simp [hps], hlast, hget2, hnext⟩

end ArenaList

namespace ArenaList

/-- Chain and free indices together are exactly the store's indices, each
once: in particular they are pairwise distinct. -/
theorem Inv.nodup {l : LinkedList T} {ps : List (Nat × T)} {fs : List Nat}
    (inv : Inv l ps fs) : (ps.map Prod.fst ++ fs).Nodup :=
  inv.cover.nodup_iff.mpr (List.nodup_range _)

/-- Counting both sides of the covering permutation. -/
theorem Inv.length_eq {l : LinkedList T} {ps : List (Nat × T)} {fs : List Nat}
    (inv : Inv l ps fs) : ps.length + fs.length = l.slots.length := by
  simpa using inv.cover.length_eq

/-- Inversion: a chain over the empty pair list stands still. -/
theorem Chain.nil_inv {slots : List (Slot (LinkedListNode T))}
    {p c last : Option Nat} (h : Chain slots p c [] last) :
    c = none ∧ last = p := by
  cases h
  exact ⟨rfl, rfl⟩

/-- Inversion: a chain whose cursor is live starts with that index. -/
theorem Chain.some_inv {slots : List (Slot (LinkedListNode T))}
    {p : Option Nat} {i : Nat} {ps : List (Nat × T)} {last : Option Nat}
    (h : Chain slots p (some i) ps last) :
    ∃ n ps2, ps = (i, n.val) :: ps2 ∧ slots[i]? = some (Slot.Used n) ∧ n.prev = p ∧
      Chain slots (some i) n.next ps2 last := by
  cases h with
  | cons p i n ps last hget hprev htail => exact ⟨n, ps, rfl, hget, hprev, htail⟩

/-- Inversion: a chain on a nonempty pair list opens with its head pair. -/
theorem Chain.cons_inv {slots : List (Slot (LinkedListNode T))}
    {p c : Option Nat} {q : Nat × T} {ps : List (Nat × T)} {last : Option Nat}
    (h : Chain slots p c (q :: ps) last) :
    ∃ n, c = some q.1 ∧ slots[q.1]? = some (Slot.Used n) ∧ n.val = q.2 ∧ n.prev = p ∧
      Chain slots (some q.1) n.next ps last := by
  cases h with
  | cons p i n ps last hget hprev htail => exact ⟨n, rfl, hget, rfl, hprev, htail⟩

/-- Inversion: a chain with a dead cursor is empty. -/
theorem Chain.none_inv {slots : List (Slot (LinkedListNode T))}
    {p : Option Nat} {ps : List (Nat × T)} {last : Option Nat}
    (h : Chain slots p none ps last) : ps = [] ∧ last = p := by
  cases h
  exact ⟨rfl, rfl⟩

/-- A nonempty chain's final index is among its indices. -/
theorem Chain.last_mem {slots : List (Slot (LinkedListNode T))}
    {p c : Option Nat} {ps : List (Nat × T)} {t : Nat}
    (h : Chain slots p c ps (some t)) (hne : ps ≠ []) :
    t ∈ ps.map Prod.fst := by
  rcases h.last_spec with ⟨hps, -, -⟩ | ⟨qs, t2, m, hps, hlast, -, -⟩
  · exact absurd hps hne
  · have ht : t = t2 := Option.some.inj hlast
    subst ht
    subst hps
    simp

/-- Appending a fresh node at the very end of a chain: the old final node's
`next` is redirected to the fresh index `j`, every other chain slot is
untouched, and `j` holds a node pointing back at the old end. -/
theorem Chain.snoc {slots slots2 : List (Slot (LinkedListNode T))}
    {p c : Option Nat} {ps : List (Nat × T)} {t : Nat}
    (h : Chain slots p c ps (some t)) (hne : ps ≠ [])
    (hnodup : (ps.map Prod.fst).Nodup)
    {j : Nat} {v : T} {nt : LinkedListNode T}
    (hget_t : slots[t]? = some (Slot.Used nt))
    (hs_t : slots2[t]? = some (Slot.Used { nt with next := some j }))
    (hs_j : slots2[j]? = some (Slot.Used { prev := some t, next := none, val := v }))
    (hs_old : ∀ i ∈ ps.map Prod.fst, i ≠ t → slots2[i]? = slots[i]?) :
    Chain slots2 p c (ps ++ [(j, v)]) (some j) := by
  induction ps generalizing p c with
  | nil => exact absurd rfl hne
  | cons q qs ih =>
      obtain ⟨qi, qv⟩ := q
      obtain ⟨n, hc, hget, hval, hprev, htail⟩ := h.cons_inv
      subst hc
      subst hval
      by_cases hqs : qs = []
      · subst hqs
        obtain ⟨hnx, hti⟩ := htail.nil_inv
        have ht : qi = t := (Option.some.inj hti).symm
        subst ht
        have hnt : nt = n := by
          have := hget_t.symm.trans hget
          simpa using this
        subst hnt
        refine Chain.cons p qi { nt with next := some j } [(j, v)] (some j) hs_t hprev ?_
        exact Chain.cons (some qi) j { prev := some qi, next := none, val := v } [] (some j)
          hs_j rfl (Chain.nil (some j))
      · have htmem : t ∈ qs.map Prod.fst := htail.last_mem hqs
        have hnd := List.nodup_cons.mp (by simpa only [List.map_cons] using hnodup)
        have hit : qi ≠ t := by
          rintro rfl
          exact hnd.1 htmem
        refine Chain.cons p qi n (qs ++ [(j, v)]) (some j) ?_ hprev ?_
        · rw [hs_old qi (by simp) hit]
          exact hget
        · exact ih htail hqs hnd.2
            (fun i2 hi2 hne2 => hs_old i2 (by rw [List.map_cons]; exact List.mem_cons_of_mem _ hi2) hne2)

/-- The far end of a snoc-shaped chain: its node, its value, and its
predecessor (the new far end after a `remove_last`). -/
theorem Chain.unsnoc_prev {slots : List (Slot (LinkedListNode T))}
    {p c : Option Nat} {qs : List (Nat × T)} {t : Nat} {v : T} {last : Option Nat}
    (h : Chain slots p c (qs ++ [(t, v)]) last) :
    ∃ nt, slots[t]? = some (Slot.Used nt) ∧ nt.val = v ∧
      ((qs = [] ∧ c = some t ∧ nt.prev = p) ∨
       (∃ qs2 tp vp, qs = qs2 ++ [(tp, vp)] ∧ nt.prev = some tp ∧
        ∃ np, slots[tp]? = some (Slot.Used np) ∧ np.val = vp ∧ np.next = some t)) := by
  induction qs generalizing p c with
  | nil =>
      obtain ⟨n, hc, hget, hval, hprev, htail⟩ := (List.nil_append _ ▸ h).cons_inv
      exact ⟨n, hget, hval, .inl ⟨rfl, hc, hprev⟩⟩
  | cons q qs2 ih =>
      obtain ⟨qi, qv⟩ := q
      obtain ⟨n, hc, hget, hval, hprev, htail⟩ := (List.cons_append _ _ _ ▸ h).cons_inv
      subst hval
      obtain ⟨nt, hgt, hvalt, hcase⟩ := ih htail
      rcases hcase with ⟨hq, hcc, hpr⟩ | ⟨qs3, tp, vp, hq, hpr, np, hnp, hnpv, hnpn⟩
      · subst hq
        exact ⟨nt, hgt, hvalt, .inr ⟨[], qi, n.val, by simp, hpr, n, hget, rfl, hcc⟩⟩
      · exact ⟨nt, hgt, hvalt,
          .inr ⟨(qi, n.val) :: qs3, tp, vp, by simp [hq], hpr, np, hnp, hnpv, hnpn⟩⟩

/-- Truncating a snoc-shaped chain: once the predecessor's `next` is
cleared and all other chain slots are untouched, the chain without its
final pair is again a chain, ending at the predecessor. -/
theorem Chain.rebuild {slots slots2 : List (Slot (LinkedListNode T))}
    {p c : Option Nat} {qs : List (Nat × T)} {tp : Nat} {vp : T} {t : Nat} {v : T}
    (h : Chain slots p c ((qs ++ [(tp, vp)]) ++ [(t, v)]) (some t))
    (hnodup : (((qs ++ [(tp, vp)]) ++ [(t, v)]).map Prod.fst).Nodup)
    (hs : ∀ i ∈ (qs ++ [(tp, vp)]).map Prod.fst, i ≠ tp → slots2[i]? = slots[i]?)
    (hs_t : ∀ m, slots[tp]? = some (Slot.Used m) →
      slots2[tp]? = some (Slot.Used { m with next := none })) :
    Chain slots2 p c (qs ++ [(tp, vp)]) (some tp) := by
  induction qs generalizing p c with
  | nil =>
      simp only [List.nil_append] at h hnodup hs ⊢
      obtain ⟨n, hc, hget, hval, hprev, htail⟩ := h.cons_inv
      subst hc
      subst hval
      exact Chain.cons p tp { n with next := none } [] (some tp) (hs_t n hget) hprev
        (Chain.nil (some tp))
  | cons q qs2 ih =>
      obtain ⟨qi, qv⟩ := q
      simp only [List.cons_append] at h ⊢
      obtain ⟨n, hc, hget, hval, hprev, htail⟩ := h.cons_inv
      subst hc
      subst hval
      have hnd := List.nodup_cons.mp
        (by simpa only [List.cons_append, List.map_cons] using hnodup)
      have hit : qi ≠ tp := by
        rintro rfl
        exact hnd.1 (by simp)
      refine Chain.cons p qi n (qs2 ++ [(tp, vp)]) (some tp) ?_ hprev ?_
      · rw [hs qi (by simp) hit]
        exact hget
      · refine ih htail hnd.2 ?_
        exact fun i2 hi2 hne2 =>
          hs i2 (by rw [List.cons_append, List.map_cons]; exact List.mem_cons_of_mem _ hi2) hne2

/-- Inversion: an empty free stack means a dead free-list head. -/
theorem FChain.nil_inv_free {slots : List (Slot (LinkedListNode T))}
    {f : Option Nat} (h : FChain slots f []) : f = none := by
  cases h
  rfl

/-- Inversion: a nonempty free stack starts at the free-list head. -/
theorem FChain.cons_inv_free {slots : List (Slot (LinkedListNode T))}
    {f : Option Nat} {i : Nat} {fs : List Nat} (h : FChain slots f (i :: fs)) :
    f = some i ∧ ∃ nf, slots[i]? = some (Slot.Free nf) ∧ FChain slots nf fs := by
  cases h with
  | cons i nf fs hget htail => exact ⟨rfl, nf, hget, htail⟩

/-- What `LinkedList::insert` does to a store satisfying the invariant:
the node lands on a slot outside the chain (the popped free-list head
when one exists, else a fresh slot appended at the end), every other slot
is untouched, and the remaining free stack is the tail of the old one. -/
theorem insert_spec {l : LinkedList T} {ps : List (Nat × T)} {fs : List Nat}
    (inv : Inv l ps fs) (node : LinkedListNode T) :
    ∃ j l2, l.insert node = some (j, l2) ∧
      l2.head = l.head ∧ l2.tail = l.tail ∧ l2.size = l.size + 1 ∧
      j ∉ ps.map Prod.fst ∧ j ∉ fs.tail ∧
      l2.slots[j]? = some (Slot.Used node) ∧
      (∀ i, i ≠ j → l2.slots[i]? = l.slots[i]?) ∧
      FChain l2.slots l2.free fs.tail ∧
      ((j :: ps.map Prod.fst) ++ fs.tail).Perm (List.range l2.slots.length) ∧
      (fs = [] → j = l.slots.length ∧ l2.slots.length = l.slots.length + 1) ∧
      (fs ≠ [] → fs = j :: fs.tail ∧ l2.slots.length = l.slots.length) ∧
      (∀ f, l.free = some f → j = f ∧ ∃ nf, l.slots[f]? = some (Slot.Free nf) ∧ l2.free = nf) := by
  rcases hfs : fs with _ | ⟨f, fsr⟩
  · subst hfs
    have hfree : l.free = none := inv.fchain.nil_inv_free
    refine ⟨l.slots.length,
      { l with size := l.size + 1, slots := l.slots ++ [Slot.Used node] },
      ?_, rfl, rfl, rfl, ?_, ?_, ?_, ?_, ?_, ?_, ?_, ?_, ?_⟩
    · simp [LinkedList.insert, hfree]
    · intro hmem
      exact absurd (inv.chain.mem_lt hmem) (lt_irrefl _)
    · simp
    · simp
    · intro i hij
      rcases Nat.lt_or_ge i l.slots.length with hlt | hge
      · exact List.getElem?_append_left hlt
      · have h1 : l.slots.length < i := lt_of_le_of_ne hge (Ne.symm hij)
        rw [List.getElem?_eq_none hge, List.getElem?_eq_none (by simpa using h1)]
    · rw [hfree]
      exact FChain.nil
    · have hcov := inv.cover
      rw [List.append_nil] at hcov
      have h1 : (l.slots.length :: List.map Prod.fst ps).Perm
          (List.map Prod.fst ps ++ [l.slots.length]) := by
        simpa using
          (@List.perm_middle _ l.slots.length (List.map Prod.fst ps) []).symm
      have h2 : (List.map Prod.fst ps ++ [l.slots.length]).Perm
          (List.range l.slots.length ++ [l.slots.length]) := hcov.append_right _
      have h3 : List.range (l.slots.length + 1)
          = List.range l.slots.length ++ [l.slots.length] := List.range_succ _
      simpa [h3] using (h1.trans h2)
    · exact fun _ => ⟨rfl, by simp⟩
    · intro hne
      exact absurd rfl hne
    · intro f hf
      rw [hfree] at hf
      exact absurd hf (by simp)
  · subst hfs
    obtain ⟨hfree, nf, hgetf, hfc2⟩ := inv.fchain.cons_inv_free
    have hflt : f < l.slots.length := (List.getElem?_eq_some.mp hgetf).1
    have hnd := inv.nodup
    have hdisj : (List.map Prod.fst ps).Disjoint (f :: fsr) := (List.nodup_append.mp hnd).2.2
    have hndf : (f :: fsr).Nodup := (List.nodup_append.mp hnd).2.1
    refine ⟨f,
      { l with size := l.size + 1, free := nf, slots := l.slots.set f (Slot.Used node) },
      ?_, rfl, rfl, rfl, ?_, ?_, ?_, ?_, ?_, ?_, ?_, ?_, ?_⟩
    · simp [LinkedList.insert, hfree, hgetf, Slot.as_free?]
    · intro hmem
      exact hdisj hmem (by simp)
    · exact (List.nodup_cons.mp hndf).1
    · exact List.getElem?_set_eq_of_lt _ hflt
    · intro i hij
      exact List.getElem?_set_ne (Ne.symm hij)
    · exact hfc2.set_ne_free _ (List.nodup_cons.mp hndf).1
    · have hcov := inv.cover
      have h1 : (List.map Prod.fst ps ++ f :: fsr).Perm (f :: (List.map Prod.fst ps ++ fsr)) :=
        List.perm_middle
      simpa using (h1.symm.trans hcov)
    · intro he
      exact absurd he (by simp)
    · exact fun _ => ⟨rfl, by simp⟩
    · intro f2 hf2
      rw [hfree] at hf2
      obtain rfl : f2 = f := (Option.some.inj hf2).symm
      exact ⟨rfl, nf, hgetf, rfl⟩

/-- Chain indices never sit on the free stack. -/
theorem Inv.not_mem_fs {l : LinkedList T} {ps : List (Nat × T)} {fs : List Nat}
    (inv : Inv l ps fs) {i : Nat} (hi : i ∈ ps.map Prod.fst) : i ∉ fs :=
  (List.nodup_append.mp inv.nodup).2.2 hi

/-- Chain indices are pairwise distinct. -/
theorem Inv.ps_nodup {l : LinkedList T} {ps : List (Nat × T)} {fs : List Nat}
    (inv : Inv l ps fs) : (ps.map Prod.fst).Nodup :=
  (List.nodup_append.mp inv.nodup).1

/-- Membership in a list's tail is membership in the list. -/
theorem mem_of_mem_tail {fs : List Nat} {i : Nat} (hi : i ∈ fs.tail) : i ∈ fs := by
  cases fs with
  | nil => exact absurd hi (List.not_mem_nil i)
  | cons a fs2 => exact List.mem_cons_of_mem _ hi

/-- `add_first` on an invariant-satisfying state: it succeeds, prepends
the value on a slot `j` taken from the free-list head (or a fresh slot),
and preserves the invariant. -/
theorem add_first_spec {l : LinkedList T} {ps : List (Nat × T)} {fs : List Nat}
    (inv : Inv l ps fs) (v : T) :
    ∃ j l2, l.add_first v = some l2 ∧ Inv l2 ((j, v) :: ps) fs.tail ∧
      l2.head = some j ∧
      (fs = [] → j = l.slots.length ∧ l2.slots.length = l.slots.length + 1) ∧
      (fs ≠ [] → fs = j :: fs.tail ∧ l2.slots.length = l.slots.length) ∧
      (∀ f, l.free = some f → j = f ∧ ∃ nf, l.slots[f]? = some (Slot.Free nf) ∧ l2.free = nf) := by
  obtain ⟨j, li, hins, hh, ht, hsz, hjp, hjf, hgj, hothers, hfc, hperm, hfsnil, hfscons, hfreepop⟩ :=
    insert_spec inv { prev := none, next := l.head, val := v }
  rcases hhead : l.head with _ | h0
  · rw [hhead] at hins hgj
    have hch := inv.chain
    rw [hhead] at hch
    obtain ⟨hps1, hps2⟩ := hch.none_inv
    subst hps1
    refine ⟨j, { li with head := some j, tail := some j }, ?_, ?_, rfl,
      (by simpa using hfsnil), (by simpa using hfscons), hfreepop⟩
    · simp [LinkedList.add_first, hins, hh, hhead]
    · refine ⟨?_, hfc, ?_, ?_⟩
      · exact Chain.cons none j { prev := none, next := none, val := v } [] (some j)
          hgj rfl (Chain.nil (some j))
      · simpa [inv.size_eq] using hsz
      · simpa using hperm
  · have hch := inv.chain
    rw [hhead] at hch
    obtain ⟨n, ps2, hps, hgh, hnprev, htail⟩ := hch.some_inv
    subst hps
    have hmem0 : h0 ∈ ((h0, n.val) :: ps2).map Prod.fst := by simp
    have hh0j : h0 ≠ j := fun e => hjp (e ▸ hmem0)
    have hlih0 : li.slots[h0]? = some (Slot.Used n) := by
      rw [hothers h0 hh0j]
      exact hgh
    have hh0lt : h0 < li.slots.length := (List.getElem?_eq_some.mp hlih0).1
    have hnd2 : h0 ∉ ps2.map Prod.fst :=
      (List.nodup_cons.mp (by simpa using inv.ps_nodup)).1
    refine ⟨j, { li with
        slots := li.slots.set h0 (Slot.Used { n with prev := some j }),
        head := some j }, ?_, ?_, rfl, ?_, ?_, ?_⟩
    · rw [hhead] at hins
      simp [LinkedList.add_first, hins, hh, hhead, hlih0, Slot.as_used?]
    · refine ⟨?_, ?_, ?_, ?_⟩
      · refine Chain.cons none j { prev := none, next := some h0, val := v }
          ((h0, n.val) :: ps2) li.tail ?_ rfl ?_
        · show (li.slots.set h0 _)[j]? = _
          rw [List.getElem?_set_ne hh0j, hgj, hhead]
        · refine Chain.cons (some j) h0 { n with prev := some j } ps2 li.tail
            (List.getElem?_set_eq_of_lt _ hh0lt) rfl ?_
          rw [ht]
          refine htail.congr ?_
          intro i hi
          have hij : i ≠ j := fun e => hjp (by rw [← e]; simp [hi])
          have hih0 : i ≠ h0 := fun e => hnd2 (e ▸ hi)
          rw [List.getElem?_set_ne (Ne.symm hih0)]
          exact hothers i hij
      · show FChain (li.slots.set h0 _) li.free fs.tail
        refine hfc.congr_free ?_
        intro i hi
        have hih0 : i ≠ h0 := fun e =>
          inv.not_mem_fs hmem0 (mem_of_mem_tail (e ▸ hi))
        exact List.getElem?_set_ne (Ne.symm hih0)
      · show li.size = _
        simp [hsz, inv.size_eq]
      · show ((((j, v) :: (h0, n.val) :: ps2).map Prod.fst) ++ fs.tail).Perm _
        simpa using hperm
    · intro hfse
      obtain ⟨h1, h2⟩ := hfsnil hfse
      exact ⟨h1, by simpa using h2⟩
    · intro hfse
      obtain ⟨h1, h2⟩ := hfscons hfse
      exact ⟨h1, by simpa using h2⟩
    · exact hfreepop

/-- `add_last` on an invariant-satisfying state: it succeeds, appends the
value on a slot `j` taken from the free-list head (or a fresh slot), and
preserves the invariant. -/
theorem add_last_spec {l : LinkedList T} {ps : List (Nat × T)} {fs : List Nat}
    (inv : Inv l ps fs) (v : T) :
    ∃ j l2, l.add_last v = some l2 ∧ Inv l2 (ps ++ [(j, v)]) fs.tail ∧
      l2.tail = some j ∧
      (fs = [] → j = l.slots.length ∧ l2.slots.length = l.slots.length + 1) ∧
      (fs ≠ [] → fs = j :: fs.tail ∧ l2.slots.length = l.slots.length) ∧
      (∀ f, l.free = some f → j = f ∧ ∃ nf, l.slots[f]? = some (Slot.Free nf) ∧ l2.free = nf) := by
  obtain ⟨j, li, hins, hh, ht, hsz, hjp, hjf, hgj, hothers, hfc, hperm, hfsnil, hfscons, hfreepop⟩ :=
    insert_spec inv { prev := l.tail, next := none, val := v }
  rcases htl : l.tail with _ | t
  · rw [htl] at hins hgj
    rcases inv.chain.last_spec with ⟨hps1, hc, -⟩ | ⟨qs, t2, m, -, hlast, -, -⟩
    swap
    · rw [htl] at hlast
      exact absurd hlast (by simp)
    subst hps1
    have hhead : l.head = none := hc
    refine ⟨j, { li with head := some j, tail := some j }, ?_, ?_, rfl,
      (by simpa using hfsnil), (by simpa using hfscons), hfreepop⟩
    · simp [LinkedList.add_last, hins, ht, htl]
    · refine ⟨?_, hfc, ?_, ?_⟩
      · show Chain li.slots none (some j) [(j, v)] (some j)
        exact Chain.cons none j { prev := none, next := none, val := v } [] (some j)
          hgj rfl (Chain.nil (some j))
      · simpa [inv.size_eq] using hsz
      · simpa using hperm
  · rcases inv.chain.last_spec with ⟨-, -, hlast⟩ | ⟨qs, t2, nt, hps, hlast, hgt, hnxt⟩
    · rw [htl] at hlast
      exact absurd hlast (by simp)
    · rw [htl] at hlast
      have ht2 : t = t2 := Option.some.inj hlast
      subst ht2
      subst hps
      have hmemt : t ∈ (qs ++ [(t, nt.val)]).map Prod.fst := by simp
      have htj : t ≠ j := fun e => hjp (e ▸ hmemt)
      have hlit : li.slots[t]? = some (Slot.Used nt) := by
        rw [hothers t htj]
        exact hgt
      have htlt : t < li.slots.length := (List.getElem?_eq_some.mp hlit).1
      refine ⟨j, { li with
          slots := li.slots.set t (Slot.Used { nt with next := some j }),
          tail := some j }, ?_, ?_, rfl, ?_, ?_, ?_⟩
      · rw [htl] at hins
        simp [LinkedList.add_last, hins, ht, htl, hlit, Slot.as_used?]
      · refine ⟨?_, ?_, ?_, ?_⟩
        · show Chain _ none li.head ((qs ++ [(t, nt.val)]) ++ [(j, v)]) (some j)
          rw [hh]
          have hchain := inv.chain
          rw [htl] at hchain
          refine hchain.snoc (by simp) inv.ps_nodup hgt
            (List.getElem?_set_eq_of_lt _ htlt) ?_ ?_
          · rw [List.getElem?_set_ne htj, hgj, htl]
          · intro i hi hit
            rw [List.getElem?_set_ne (Ne.symm hit)]
            exact hothers i (fun e => hjp (e ▸ hi))
        · show FChain (li.slots.set t _) li.free fs.tail
          refine hfc.congr_free ?_
          intro i hi
          have hitne : i ≠ t := fun e =>
            inv.not_mem_fs hmemt (mem_of_mem_tail (e ▸ hi))
          exact List.getElem?_set_ne (Ne.symm hitne)
        · show li.size = _
          simp [hsz, inv.size_eq]
        · show (((qs ++ [(t, nt.val)] ++ [(j, v)]).map Prod.fst) ++ fs.tail).Perm _
          have h1 : ((qs ++ [(t, nt.val)] ++ [(j, v)]).map Prod.fst) ++ fs.tail
              = ((qs ++ [(t, nt.val)]).map Prod.fst) ++ (j :: fs.tail) := by
            simp
          rw [h1]
          have h2 := @List.perm_middle _ j ((qs ++ [(t, nt.val)]).map Prod.fst) fs.tail
          refine h2.trans ?_
          simpa using hperm
      · intro hfse
        obtain ⟨h1, h2⟩ := hfsnil hfse
        exact ⟨h1, by simpa using h2⟩
      · intro hfse
        obtain ⟨h1, h2⟩ := hfscons hfse
        exact ⟨h1, by simpa using h2⟩
      · exact hfreepop

/-- `remove_first` on an invariant-satisfying state: on the empty list it
yields absence and the untouched state; otherwise it pops the head pair,
pushes the vacated slot on the free stack, and preserves the invariant.
The detail clauses record exactly the head/tail/link/free-slot updates
`src/main.rs 175-198` performs. -/
theorem remove_first_spec {l : LinkedList T} {ps : List (Nat × T)} {fs : List Nat}
    (inv : Inv l ps fs) :
    (ps = [] → l.head = none ∧ l.remove_first = some (none, l)) ∧
    (∀ h0 v ps2, ps = (h0, v) :: ps2 →
      ∃ n l2, l.head = some h0 ∧ l.slots[h0]? = some (Slot.Used n) ∧ n.val = v ∧
        l.remove_first = some (some v, l2) ∧ Inv l2 ps2 (h0 :: fs) ∧
        l2.slots.length = l.slots.length ∧ l2.free = some h0 ∧ l2.size = l.size - 1 ∧
        l2.head = n.next ∧
        (n.next = none → l2.tail = none) ∧
        (∀ nh, n.next = some nh → l2.tail = l.tail ∧ ∃ n2,
          l.slots[nh]? = some (Slot.Used n2) ∧
          l2.slots[nh]? = some (Slot.Used { n2 with prev := none })) ∧
        l2.slots[h0]? = some (Slot.Free l.free)) := by
  constructor
  · intro hps
    have hch := inv.chain
    rw [hps] at hch
    obtain ⟨hhead, -⟩ := hch.nil_inv
    exact ⟨hhead, by simp [LinkedList.remove_first, hhead]⟩
  · intro h0 v ps2 hps
    subst hps
    obtain ⟨n, hc, hget, hval, hprev, htail⟩ := inv.chain.cons_inv
    have hh0lt : h0 < l.slots.length := (List.getElem?_eq_some.mp hget).1
    have hndall := inv.nodup
    have hnd0 : h0 ∉ ps2.map Prod.fst :=
      (List.nodup_cons.mp (by simpa using inv.ps_nodup)).1
    have hh0fs : h0 ∉ fs := inv.not_mem_fs (by simp)
    rcases hnx : n.next with _ | nh
    · rw [hnx] at htail
      obtain ⟨hps2, htl⟩ := htail.none_inv
      subst hps2
      refine ⟨n, (⟨l.size - 1, none, none, some h0,
          l.slots.set h0 (Slot.Free l.free)⟩ : LinkedList T), hc, hget, hval, ?_, ?_, (by simp),
          rfl, rfl, (by rw [hnx]), (fun _ => rfl), ?_, ?_⟩
      · simp [LinkedList.remove_first, hc, hget, Slot.as_used?, hnx, hval]
      · refine ⟨Chain.nil none, ?_, ?_, ?_⟩
        · exact FChain.cons h0 l.free fs (List.getElem?_set_eq_of_lt _ hh0lt)
            (inv.fchain.set_ne_free _ hh0fs)
        · simp [inv.size_eq]
        · simpa using inv.cover
      · intro nh hnh
        rw [hnx] at hnh
        exact absurd hnh (by simp)
      · exact List.getElem?_set_eq_of_lt _ hh0lt
    · rw [hnx] at htail
      obtain ⟨n2, ps3, hps2, hget2, hprev2, htail2⟩ := htail.some_inv
      subst hps2
      have hh0nh : h0 ≠ nh := fun e => hnd0 (by rw [e]; simp)
      have hnhlt : nh < l.slots.length := (List.getElem?_eq_some.mp hget2).1
      have hnd1 : nh ∉ ps3.map Prod.fst := by
        have := inv.ps_nodup
        simp only [List.map_cons, List.nodup_cons] at this
        exact this.2.1
      have hnhfs : nh ∉ fs := inv.not_mem_fs (by simp)
      refine ⟨n, (⟨l.size - 1, some nh, l.tail, some h0,
          (l.slots.set nh (Slot.Used { n2 with prev := none })).set h0
            (Slot.Free l.free)⟩ : LinkedList T), hc, hget, hval, ?_, ?_, (by simp), rfl, rfl,
          (by rw [hnx]), (by rw [hnx]; intro h; exact absurd h (by simp)), ?_, ?_⟩
      · have hslot : (l.slots.set nh (Slot.Used { n2 with prev := none }))[h0]?
            = some (Slot.Used n) := by
          rw [List.getElem?_set_ne (Ne.symm hh0nh)]
          exact hget
        simp [LinkedList.remove_first, hc, hget, Slot.as_used?, hnx, hget2, hslot, hval]
      · refine ⟨?_, ?_, ?_, ?_⟩
        · refine Chain.cons none nh { n2 with prev := none } ps3 l.tail ?_ rfl ?_
          · show ((l.slots.set nh (Slot.Used { n2 with prev := none })).set h0
              (Slot.Free l.free))[nh]? = _
            rw [List.getElem?_set_ne hh0nh]
            exact List.getElem?_set_eq_of_lt _ hnhlt
          · refine htail2.congr ?_
            intro i hi
            have hinh : i ≠ nh := fun e => hnd1 (e ▸ hi)
            have hih0 : i ≠ h0 := fun e => hnd0 (by rw [← e]; simp [hi])
            rw [List.getElem?_set_ne (Ne.symm hih0), List.getElem?_set_ne (Ne.symm hinh)]
        · refine FChain.cons h0 l.free fs ?_ ?_
          · show ((l.slots.set nh (Slot.Used { n2 with prev := none })).set h0
              (Slot.Free l.free))[h0]? = _
            rw [List.getElem?_set_eq_of_lt]
            simpa using hh0lt
          · refine inv.fchain.congr_free ?_
            intro i hi
            have hih0 : i ≠ h0 := fun e => hh0fs (e ▸ hi)
            have hinh : i ≠ nh := fun e => hnhfs (e ▸ hi)
            rw [List.getElem?_set_ne (Ne.symm hih0), List.getElem?_set_ne (Ne.symm hinh)]
        · simp [inv.size_eq]
        · show ((((nh, n2.val) :: ps3).map Prod.fst) ++ h0 :: fs).Perm _
          have h1 := @List.perm_middle _ h0 (((nh, n2.val) :: ps3).map Prod.fst) fs
          refine h1.trans ?_
          simpa using inv.cover
      · intro nh2 hnh2
        rw [hnx] at hnh2
        obtain rfl : nh = nh2 := Option.some.inj hnh2
        refine ⟨rfl, n2, hget2, ?_⟩
        show ((l.slots.set nh (Slot.Used { n2 with prev := none })).set h0
          (Slot.Free l.free))[nh]? = _
        rw [List.getElem?_set_ne hh0nh]
        exact List.getElem?_set_eq_of_lt _ hnhlt
      · exact List.getElem?_set_eq_of_lt _ (by simpa using hh0lt)

/-- `remove_last` on an invariant-satisfying state: on the empty list it
yields absence and the untouched state; otherwise it pops the final pair,
pushes the vacated slot on the free stack, and preserves the invariant. -/
theorem remove_last_spec {l : LinkedList T} {ps : List (Nat × T)} {fs : List Nat}
    (inv : Inv l ps fs) :
    (ps = [] → l.tail = none ∧ l.remove_last = some (none, l)) ∧
    (∀ qs t v, ps = qs ++ [(t, v)] →
      ∃ l2, l.tail = some t ∧ l.remove_last = some (some v, l2) ∧ Inv l2 qs (t :: fs) ∧
        l2.slots.length = l.slots.length ∧ l2.free = some t ∧ l2.size = l.size - 1) := by
  constructor
  · intro hps
    have hch := inv.chain
    rw [hps] at hch
    obtain ⟨-, htl⟩ := hch.nil_inv
    exact ⟨htl, by simp [LinkedList.remove_last, htl]⟩
  · intro qs t v hps
    subst hps
    have htl : l.tail = some t := by
      rcases inv.chain.last_spec with ⟨hps, -, -⟩ | ⟨qs2, t2, m, hps, hlast, -, -⟩
      · exact absurd hps (by simp)
      · have hx : ((qs ++ [(t, v)]).getLast?) = some (t2, m.val) := by
          rw [hps]
          simp
        rw [List.getLast?_concat] at hx
        obtain ⟨ht2, -⟩ := Prod.mk.injEq .. ▸ (Option.some.inj hx)
        rw [hlast, ← ht2]
    obtain ⟨nt, hgt, hval, hcase⟩ := inv.chain.unsnoc_prev
    have htlt : t < l.slots.length := (List.getElem?_eq_some.mp hgt).1
    have htfs : t ∉ fs := inv.not_mem_fs (by simp)
    rcases hcase with ⟨hqs, hc, hpr⟩ | ⟨qs3, tp, vp, hq, hpr, np, hnp, hnpv, hnpn⟩
    · subst hqs
      refine ⟨(⟨l.size - 1, none, none, some t,
          l.slots.set t (Slot.Free l.free)⟩ : LinkedList T), htl, ?_, ?_, (by simp), rfl, rfl⟩
      · simp [LinkedList.remove_last, htl, hgt, Slot.as_used?, hpr, hval]
      · refine ⟨Chain.nil none, ?_, ?_, ?_⟩
        · exact FChain.cons t l.free fs (List.getElem?_set_eq_of_lt _ htlt)
            (inv.fchain.set_ne_free _ htfs)
        · simp [inv.size_eq]
        · simpa using inv.cover
    · subst hq
      have hmtp : tp ∈ ((qs3 ++ [(tp, vp)]) ++ [(t, v)]).map Prod.fst := by simp
      have htpfs : tp ∉ fs := inv.not_mem_fs hmtp
      have htpt : tp ≠ t := by
        have hnd := inv.ps_nodup
        simp only [List.map_append, List.map_cons, List.map_nil] at hnd
        have hdj := (List.nodup_append.mp hnd).2.2
        have h1 : tp ∈ List.map Prod.fst qs3 ++ [tp] := by simp
        exact fun e => hdj h1 (by simp [e])
      have htplt : tp < l.slots.length := (List.getElem?_eq_some.mp hnp).1
      refine ⟨(⟨l.size - 1, l.head, some tp, some t,
          (l.slots.set tp (Slot.Used { np with next := none })).set t
            (Slot.Free l.free)⟩ : LinkedList T), htl, ?_, ?_, (by simp), rfl, rfl⟩
      · have hslot : (l.slots.set tp (Slot.Used { np with next := none }))[t]?
            = some (Slot.Used nt) := by
          rw [List.getElem?_set_ne htpt]
          exact hgt
        simp [LinkedList.remove_last, htl, hgt, Slot.as_used?, hpr, hnp, hslot, hval]
      · refine ⟨?_, ?_, ?_, ?_⟩
        · show Chain _ none l.head (qs3 ++ [(tp, vp)]) (some tp)
          have hch := inv.chain
          rw [htl] at hch
          refine hch.rebuild inv.ps_nodup ?_ ?_
          · intro i hi hitp
            have hit : i ≠ t := by
              have hnd := inv.ps_nodup
              simp only [List.map_append, List.map_cons, List.map_nil] at hnd
              have hdj := (List.nodup_append.mp hnd).2.2
              have h1 : i ∈ List.map Prod.fst qs3 ++ [tp] := by simpa using hi
              exact fun e => hdj h1 (by simp [e])
            rw [List.getElem?_set_ne (Ne.symm hit), List.getElem?_set_ne (Ne.symm hitp)]
          · intro m hm
            have hmnp : m = np := by
              have := hm.symm.trans hnp
              simpa using this
            subst hmnp
            show ((l.slots.set tp _).set t _)[tp]? = _
            rw [List.getElem?_set_ne (Ne.symm htpt)]
            exact List.getElem?_set_eq_of_lt _ htplt
        · refine FChain.cons t l.free fs ?_ ?_
          · exact List.getElem?_set_eq_of_lt _ (by simpa using htlt)
          · refine inv.fchain.congr_free ?_
            intro i hi
            have hit : i ≠ t := fun e => htfs (e ▸ hi)
            have hitp : i ≠ tp := fun e => htpfs (e ▸ hi)
            rw [List.getElem?_set_ne (Ne.symm hit), List.getElem?_set_ne (Ne.symm hitp)]
        · simp [inv.size_eq]
        · show (((qs3 ++ [(tp, vp)]).map Prod.fst) ++ t :: fs).Perm _
          have hc2 := inv.cover
          simp only [List.map_append, List.map_cons, List.map_nil, List.append_assoc,
            List.length_set] at hc2 ⊢
          simpa using hc2

/-- The fresh list satisfies the invariant with empty chain and stack. -/
theorem inv_new (T : Type u) : Inv (LinkedList.new T) [] [] :=
  ⟨Chain.nil none, FChain.nil, rfl, by simp [LinkedList.new]⟩

/-- One public call on an invariant state succeeds and tracks the pure
value-sequence model. -/
theorem runOp_spec {l : LinkedList T} {ps : List (Nat × T)} {fs : List Nat}
    (inv : Inv l ps fs) (op : Op T) :
    ∃ l2 ps2 fs2, runOp l op = some l2 ∧ Inv l2 ps2 fs2 ∧
      ps2.map Prod.snd = modelOp (ps.map Prod.snd) op := by
  cases op with
  | addFirst v =>
      obtain ⟨j, l2, hrun, hinv, -⟩ := add_first_spec inv v
      exact ⟨l2, _, _, hrun, hinv, by simp [modelOp]⟩
  | addLast v =>
      obtain ⟨j, l2, hrun, hinv, -⟩ := add_last_spec inv v
      exact ⟨l2, _, _, hrun, hinv, by simp [modelOp]⟩
  | removeFirst =>
      rcases hps : ps with _ | ⟨⟨h0, v⟩, ps2⟩
      · obtain ⟨-, hrun⟩ := (remove_first_spec inv).1 hps
        exact ⟨l, ps, fs, by simp [runOp, hrun], inv, by simp [modelOp, hps]⟩
      · obtain ⟨n, l2, -, -, -, hrun, hinv, -, -, -, -, -, -⟩ :=
          (remove_first_spec inv).2 h0 v ps2 hps
        exact ⟨l2, ps2, h0 :: fs, by simp [runOp, hrun], hinv, by simp [modelOp, hps]⟩
  | removeLast =>
      rcases List.eq_nil_or_concat ps with hps | ⟨qs, x, hps⟩
      · obtain ⟨-, hrun⟩ := (remove_last_spec inv).1 hps
        exact ⟨l, ps, fs, by simp [runOp, hrun], inv, by simp [modelOp, hps]⟩
      · obtain ⟨t, v⟩ := x
        have hps2 : ps = qs ++ [(t, v)] := by simpa using hps
        obtain ⟨l2, -, hrun, hinv, -, -, -⟩ := (remove_last_spec inv).2 qs t v hps2
        exact ⟨l2, qs, t :: fs, by simp [runOp, hrun], hinv, by simp [modelOp, hps2]⟩

/-- Any public call sequence from an invariant state succeeds and the final
values are the fold of the pure model over the calls. -/
theorem runOps_inv {l : LinkedList T} {ps : List (Nat × T)} {fs : List Nat}
    (inv : Inv l ps fs) (ops : List (Op T)) :
    ∃ l2 ps2 fs2, runOps l ops = some l2 ∧ Inv l2 ps2 fs2 ∧
      ps2.map Prod.snd = List.foldl modelOp (ps.map Prod.snd) ops := by
  induction ops generalizing l ps fs with
  | nil => exact ⟨l, ps, fs, rfl, inv, rfl⟩
  | cons op ops ih =>
      obtain ⟨l2, ps2, fs2, hrun, hinv, hmodel⟩ := runOp_spec inv op
      obtain ⟨l3, ps3, fs3, hrun3, hinv3, hmodel3⟩ := ih hinv
      refine ⟨l3, ps3, fs3, by simp [runOps, hrun, hrun3], hinv3, ?_⟩
      rw [List.foldl_cons, ← hmodel]
      exact hmodel3

/-- Every reachable state carries the invariant for some chain contents
and free stack. -/
theorem reachable_inv {l : LinkedList T} (h : Reachable l) : ∃ ps fs, Inv l ps fs := by
  obtain ⟨ops, hops⟩ := h
  obtain ⟨l2, ps2, fs2, hrun, hinv, -⟩ := runOps_inv (inv_new T) ops
  rw [hops] at hrun
  obtain rfl : l = l2 := Option.some.inj hrun
  exact ⟨ps2, fs2, hinv⟩

/-- Consuming the iterator from a chain cursor yields exactly the chain's
values, for any fuel at least the chain length. -/
theorem consume_chain {l : LinkedList T} {p c : Option Nat} {ps : List (Nat × T)}
    {last : Option Nat} (h : Chain l.slots p c ps last) {fuel : Nat}
    (hfuel : ps.length ≤ fuel) :
    consume l ⟨c⟩ fuel = some (ps.map Prod.snd) := by
  induction h generalizing fuel with
  | nil p =>
      cases fuel with
      | zero => simp [consume]
      | succ f => simp [consume, LinkedListIterator.next]
  | cons p i n ps last hget hprev htail ih =>
      cases fuel with
      | zero => simp at hfuel
      | succ f =>
          have hle : ps.length ≤ f := by simpa using hfuel
          simp [consume, LinkedListIterator.next, hget, Slot.as_used?, ih hle]

/-- A full fresh traversal of an invariant state yields exactly the
chain's values. -/
theorem iterAll_spec {l : LinkedList T} {ps : List (Nat × T)} {fs : List Nat}
    (inv : Inv l ps fs) : l.iterAll = some (ps.map Prod.snd) := by
  have hlen : ps.length ≤ l.slots.length := by
    have := inv.length_eq
    omega
  have := consume_chain inv.chain hlen
  simpa [LinkedList.iterAll, LinkedList.iter] using this

/-- `get_first` returns the first chain value (absence on the empty list),
never aborting on an invariant state. -/
theorem get_first_spec {l : LinkedList T} {ps : List (Nat × T)} {fs : List Nat}
    (inv : Inv l ps fs) : l.get_first = some ((ps.map Prod.snd).head?) := by
  rcases hhead : l.head with _ | h0
  · have hch := inv.chain
    rw [hhead] at hch
    obtain ⟨hps, -⟩ := hch.none_inv
    simp [LinkedList.get_first, hhead, hps]
  · have hch := inv.chain
    rw [hhead] at hch
    obtain ⟨n, ps2, hps, hget, -, -⟩ := hch.some_inv
    simp [LinkedList.get_first, hhead, hget, Slot.as_used?, hps]

/-- `get_last` returns the last chain value (absence on the empty list),
never aborting on an invariant state. -/
theorem get_last_spec {l : LinkedList T} {ps : List (Nat × T)} {fs : List Nat}
    (inv : Inv l ps fs) : l.get_last = some ((ps.map Prod.snd).getLast?) := by
  rcases inv.chain.last_spec with ⟨hps, -, htl⟩ | ⟨qs, t, nt, hps, htl, hget, -⟩
  · subst hps
    simp [LinkedList.get_last, htl]
  · subst hps
    simp [LinkedList.get_last, htl, hget, Slot.as_used?]

/-- Draining the whole list from the front returns the chain values in
order, every call yielding a value. -/
theorem drainFirstN_spec {l : LinkedList T} {ps : List (Nat × T)} {fs : List Nat}
    (inv : Inv l ps fs) : drainFirstN l ps.length = some (ps.map Prod.snd) := by
  induction ps generalizing l fs with
  | nil => simp [drainFirstN]
  | cons q ps2 ih =>
      obtain ⟨qi, qv⟩ := q
      obtain ⟨n, l2, -, -, -, hrun, hinv, -, -, -, -, -, -⟩ :=
        (remove_first_spec inv).2 qi qv ps2 rfl
      simp [drainFirstN, hrun, ih hinv]

/-- Draining the whole list from the back returns the chain values in
reverse order, every call yielding a value. -/
theorem drainLastN_spec {l : LinkedList T} {ps : List (Nat × T)} {fs : List Nat}
    (inv : Inv l ps fs) : drainLastN l ps.length = some (ps.map Prod.snd).reverse := by
  generalize hn : ps.length = nn
  induction nn generalizing l ps fs with
  | zero =>
      have hps : ps = [] := List.length_eq_zero.mp hn
      subst hps
      simp [drainLastN]
  | succ k ih =>
      rcases List.eq_nil_or_concat ps with hps | ⟨qs, x, hps⟩
      · subst hps
        simp at hn
      · obtain ⟨t, v⟩ := x
        have hps2 : ps = qs ++ [(t, v)] := by simpa using hps
        obtain ⟨l2, -, hrun, hinv, -, -, -⟩ := (remove_last_spec inv).2 qs t v hps2
        have hk : qs.length = k := by
          rw [hps2] at hn
          simpa using hn
        simp [drainLastN, hrun, ih hinv hk, hps2]

/-- Folding the model over `add_last` calls appends the values in order. -/
theorem foldl_addLast (acc vs : List T) :
    List.foldl modelOp acc (vs.map Op.addLast) = acc ++ vs := by
  induction vs generalizing acc with
  | nil => simp
  | cons v vs ih => simp [modelOp, ih]

/-- Folding the model over `add_first` calls prepends the values in
reverse order. -/
theorem foldl_addFirst (acc vs : List T) :
    List.foldl modelOp acc (vs.map Op.addFirst) = vs.reverse ++ acc := by
  induction vs generalizing acc with
  | nil => simp
  | cons v vs ih => simp [modelOp, ih]

/-- A sequence of removals never changes the store's length and removes
exactly one chain entry per call (as long as entries remain). -/
theorem runOps_removes {l : LinkedList T} {ps : List (Nat × T)} {fs : List Nat}
    (inv : Inv l ps fs) (ops : List (Op T))
    (hall : ∀ op ∈ ops, op.isRemove = true) (hle : ops.length ≤ ps.length) :
    ∃ l2 ps2 fs2, runOps l ops = some l2 ∧ Inv l2 ps2 fs2 ∧
      l2.slots.length = l.slots.length ∧ ps2.length = ps.length - ops.length := by
  induction ops generalizing l ps fs with
  | nil => exact ⟨l, ps, fs, rfl, inv, rfl, by simp⟩
  | cons op ops ih =>
      have hop := hall op (by simp)
      have hall2 : ∀ op2 ∈ ops, op2.isRemove = true :=
        fun op2 h2 => hall op2 (List.mem_cons_of_mem _ h2)
      cases op with
      | addFirst v => simp [Op.isRemove] at hop
      | addLast v => simp [Op.isRemove] at hop
      | removeFirst =>
          rcases hps : ps with _ | ⟨⟨h0, v⟩, ps2⟩
          · rw [hps] at hle
            simp at hle
          · obtain ⟨n, l2, -, -, -, hrun, hinv, hlen, -, -, -, -, -⟩ :=
              (remove_first_spec inv).2 h0 v ps2 hps
            obtain ⟨l3, ps3, fs3, hrun3, hinv3, hlen3, hcnt⟩ := ih hinv hall2
              (by rw [hps] at hle; simp at hle; omega)
            refine ⟨l3, ps3, fs3, by simp [runOps, runOp, hrun, hrun3], hinv3,
              by rw [hlen3, hlen], ?_⟩
            simp only [List.length_cons]
            omega
      | removeLast =>
          rcases List.eq_nil_or_concat ps with hps | ⟨qs, x, hps⟩
          · rw [hps] at hle
            simp at hle
          · obtain ⟨t, v⟩ := x
            have hps2 : ps = qs ++ [(t, v)] := by simpa using hps
            obtain ⟨l2, -, hrun, hinv, hlen, -, -⟩ := (remove_last_spec inv).2 qs t v hps2
            obtain ⟨l3, ps3, fs3, hrun3, hinv3, hlen3, hcnt⟩ := ih hinv hall2
              (by rw [hps2] at hle; simp at hle; omega)
            refine ⟨l3, ps3, fs3, by simp [runOps, runOp, hrun, hrun3], hinv3,
              by rw [hlen3, hlen], ?_⟩
            rw [hps2]
            simp only [List.length_append, List.length_cons, List.length_nil]
            omega

/-- A sequence of insertions no longer than the free stack never grows the
store: every new node reuses a freed slot. -/
theorem runOps_adds {l : LinkedList T} {ps : List (Nat × T)} {fs : List Nat}
    (inv : Inv l ps fs) (ops : List (Op T))
    (hall : ∀ op ∈ ops, op.isAdd = true) (hle : ops.length ≤ fs.length) :
    ∃ l2 ps2 fs2, runOps l ops = some l2 ∧ Inv l2 ps2 fs2 ∧
      l2.slots.length = l.slots.length := by
  induction ops generalizing l ps fs with
  | nil => exact ⟨l, ps, fs, rfl, inv, rfl⟩
  | cons op ops ih =>
      have hop := hall op (by simp)
      have hall2 : ∀ op2 ∈ ops, op2.isAdd = true :=
        fun op2 h2 => hall op2 (List.mem_cons_of_mem _ h2)
      rcases hfs : fs with _ | ⟨f, fs2⟩
      · rw [hfs] at hle
        simp at hle
      · have hfsne : fs ≠ [] := by rw [hfs]; simp
        cases op with
        | removeFirst => simp [Op.isAdd] at hop
        | removeLast => simp [Op.isAdd] at hop
        | addFirst v =>
            obtain ⟨j, l2, hrun, hinv, -, -, hcons, -⟩ := add_first_spec inv v
            obtain ⟨-, hlen⟩ := hcons hfsne
            obtain ⟨l3, ps3, fs3, hrun3, hinv3, hlen3⟩ := ih hinv hall2
              (by rw [hfs] at hle ⊢; simpa using hle)
            exact ⟨l3, ps3, fs3, by simp [runOps, runOp, hrun, hrun3], hinv3,
              by rw [hlen3, hlen]⟩
        | addLast v =>
            obtain ⟨j, l2, hrun, hinv, -, -, hcons, -⟩ := add_last_spec inv v
            obtain ⟨-, hlen⟩ := hcons hfsne
            obtain ⟨l3, ps3, fs3, hrun3, hinv3, hlen3⟩ := ih hinv hall2
              (by rw [hfs] at hle ⊢; simpa using hle)
            exact ⟨l3, ps3, fs3, by simp [runOps, runOp, hrun, hrun3], hinv3,
              by rw [hlen3, hlen]⟩

end ArenaList

namespace ArenaList

/-- The concrete state `runOps` builds from `new` by `add_last 1; add_last 2`;
used to instantiate reachability hypotheses on concrete inputs. -/
def sampleTwo : LinkedList Nat :=
  { size := 2, head := some 0, tail := some 1, free := none,
    slots := [Slot.Used { prev := none, next := some 1, val := 1 },
              Slot.Used { prev := some 0, next := none, val := 2 }] }

/-- The concrete state after `add_last 10; add_last 20; add_last 30;
remove_first; remove_first`: value `30` lives in slot `2`, slots `1` and
`0` are free with `1` (the slot of `20`, freed last) at the free-list
head. -/
def sampleFreed : LinkedList Nat :=
  { size := 1, head := some 2, tail := some 2, free := some 1,
    slots := [Slot.Free none, Slot.Free (some 0),
              Slot.Used { prev := none, next := none, val := 30 }] }

/-- C1: for every finite sequence of `add_first`/`add_last`/`remove_first`/
`remove_last` calls applied to a list created by `new()`, the calls all
succeed and the `size` field returned by `size()` equals the number of
elements a full forward traversal via `iter()` yields. -/
theorem size_eq_traversal_count (T : Type) (ops : List (Op T)) :
    ∃ l xs, runOps (LinkedList.new T) ops = some l ∧
      l.iterAll = some xs ∧ l.size = xs.length := by
  obtain ⟨l, ps, fs, hrun, hinv, -⟩ := runOps_inv (inv_new T) ops
  exact ⟨l, ps.map Prod.snd, hrun, iterAll_spec hinv, by simpa using hinv.size_eq⟩

/-- C2: pushing a sequence with `add_last` and popping with `remove_first`
returns it unchanged; `add_first` then `remove_last` likewise; `add_first`
then `remove_first` reverses it (LIFO), as does `add_last` then
`remove_last`. -/
theorem push_pop_round_trip (T : Type) (vs : List T) :
    (∃ l, runOps (LinkedList.new T) (vs.map Op.addLast) = some l ∧
      drainFirstN l vs.length = some vs) ∧
    (∃ l, runOps (LinkedList.new T) (vs.map Op.addFirst) = some l ∧
      drainLastN l vs.length = some vs) ∧
    (∃ l, runOps (LinkedList.new T) (vs.map Op.addFirst) = some l ∧
      drainFirstN l vs.length = some vs.reverse) ∧
    (∃ l, runOps (LinkedList.new T) (vs.map Op.addLast) = some l ∧
      drainLastN l vs.length = some vs.reverse) := by
  refine ⟨?_, ?_, ?_, ?_⟩
  · obtain ⟨l, ps, fs, hrun, hinv, hmod⟩ := runOps_inv (inv_new T) (vs.map Op.addLast)
    rw [foldl_addLast] at hmod
    have hv : ps.map Prod.snd = vs := by simpa using hmod
    have hlen : ps.length = vs.length := by rw [← hv]; simp
    exact ⟨l, hrun, by rw [← hlen, drainFirstN_spec hinv, hv]⟩
  · obtain ⟨l, ps, fs, hrun, hinv, hmod⟩ := runOps_inv (inv_new T) (vs.map Op.addFirst)
    rw [foldl_addFirst] at hmod
    have hv : ps.map Prod.snd = vs.reverse := by simpa using hmod
    have hlen : ps.length = vs.length := by rw [← List.length_reverse vs, ← hv]; simp
    exact ⟨l, hrun, by rw [← hlen, drainLastN_spec hinv, hv, List.reverse_reverse]⟩
  · obtain ⟨l, ps, fs, hrun, hinv, hmod⟩ := runOps_inv (inv_new T) (vs.map Op.addFirst)
    rw [foldl_addFirst] at hmod
    have hv : ps.map Prod.snd = vs.reverse := by simpa using hmod
    have hlen : ps.length = vs.length := by rw [← List.length_reverse vs, ← hv]; simp
    exact ⟨l, hrun, by rw [← hlen, drainFirstN_spec hinv, hv]⟩
  · obtain ⟨l, ps, fs, hrun, hinv, hmod⟩ := runOps_inv (inv_new T) (vs.map Op.addLast)
    rw [foldl_addLast] at hmod
    have hv : ps.map Prod.snd = vs := by simpa using hmod
    have hlen : ps.length = vs.length := by rw [← hv]; simp
    exact ⟨l, hrun, by rw [← hlen, drainLastN_spec hinv, hv]⟩

/-- C4: from any public call sequence on `new()` the internal
`expected used slot` / `expected free slot` aborts (and out-of-bounds
indexing, both modelled by `none`) are unreachable: every mutator
succeeds, and on the resulting state `get_first`, `get_last`, a full
iterator consumption and any further mutator all evaluate without abort
(`size` and `is_empty` are total field reads). -/
theorem no_internal_abort (T : Type) (ops : List (Op T)) :
    ∃ l, runOps (LinkedList.new T) ops = some l ∧
      l.get_first ≠ none ∧ l.get_last ≠ none ∧ l.iterAll ≠ none ∧
      ∀ op, runOp l op ≠ none := by
  obtain ⟨l, ps, fs, hrun, hinv, -⟩ := runOps_inv (inv_new T) ops
  refine ⟨l, hrun, ?_, ?_, ?_, ?_⟩
  · rw [get_first_spec hinv]
    simp
  · rw [get_last_spec hinv]
    simp
  · rw [iterAll_spec hinv]
    simp
  · intro op
    obtain ⟨l2, ps2, fs2, hrun2, -, -⟩ := runOp_spec hinv op
    rw [hrun2]
    simp

/-- C3: on any reachable state, `remove_first()` returns absence on the
empty list; on a non-empty list it returns the head node's value, advances
`head` to that node's `next`, clears `tail` when there is no successor,
clears the successor's `prev` when one exists, marks the vacated slot
`Free` pointing at the old free-list head, and makes it the new free-list
head. -/
theorem remove_first_contract (T : Type) (ops : List (Op T)) (l : LinkedList T)
    (hreach : runOps (LinkedList.new T) ops = some l) :
    (l.head = none → l.remove_first = some (none, l)) ∧
    (∀ pos, l.head = some pos → ∃ n l2,
      l.slots[pos]? = some (Slot.Used n) ∧
      l.remove_first = some (some n.val, l2) ∧
      l2.head = n.next ∧
      (n.next = none → l2.tail = none) ∧
      (∀ nh, n.next = some nh → l2.tail = l.tail ∧ ∃ n2,
        l.slots[nh]? = some (Slot.Used n2) ∧
        l2.slots[nh]? = some (Slot.Used { n2 with prev := none })) ∧
      l2.slots[pos]? = some (Slot.Free l.free) ∧
      l2.free = some pos ∧ l2.size = l.size - 1) := by
  obtain ⟨ps, fs, hinv⟩ := reachable_inv ⟨ops, hreach⟩
  constructor
  · intro hhead
    have hch := hinv.chain
    rw [hhead] at hch
    obtain ⟨hps, -⟩ := hch.none_inv
    exact ((remove_first_spec hinv).1 hps).2
  · intro pos hhead
    have hch := hinv.chain
    rw [hhead] at hch
    obtain ⟨n, ps2, hps, hget, -, -⟩ := hch.some_inv
    obtain ⟨n2, l2, -, hget2, -, hrun, -, -, hfree, hsize, hh, htnone, htsome, hslot⟩ :=
      (remove_first_spec hinv).2 pos n.val ps2 hps
    have hn : n2 = n := by
      have := hget2.symm.trans hget
      simpa using this
    subst hn
    exact ⟨n2, l2, hget, hrun, hh, htnone, htsome, hslot, hfree, hsize⟩

/-- Witness for C3: the two-element state `1, 2` with head at slot `0`;
`remove_first` returns `1`, advances the head, clears slot `1`'s `prev`,
frees slot `0`. -/
theorem remove_first_contract_witness :
    ∃ n l2,
      sampleTwo.slots[0]? = some (Slot.Used n) ∧
      sampleTwo.remove_first = some (some n.val, l2) ∧
      l2.head = n.next ∧
      (n.next = none → l2.tail = none) ∧
      (∀ nh, n.next = some nh → l2.tail = sampleTwo.tail ∧ ∃ n2,
        sampleTwo.slots[nh]? = some (Slot.Used n2) ∧
        l2.slots[nh]? = some (Slot.Used { n2 with prev := none })) ∧
      l2.slots[0]? = some (Slot.Free sampleTwo.free) ∧
      l2.free = some 0 ∧ l2.size = sampleTwo.size - 1 :=
  (remove_first_contract Nat [Op.addLast 1, Op.addLast 2] sampleTwo (by decide)).2 0 rfl

/-- The state after additionally running `add_last 40` on `sampleFreed`:
the node for `40` reuses slot `1`, the most recently freed slot, and the
free-list head moves on to slot `0`. -/
def sampleSix : LinkedList Nat :=
  { size := 2, head := some 2, tail := some 1, free := some 0,
    slots := [Slot.Free none, Slot.Used { prev := some 2, next := none, val := 40 },
              Slot.Used { prev := none, next := some 1, val := 30 }] }

/-- The state after additionally running `add_first 0` on `sampleSix`:
the node for `0` reuses slot `0`, the remaining free slot. -/
def sampleSeven : LinkedList Nat :=
  { size := 3, head := some 0, tail := some 1, free := none,
    slots := [Slot.Used { prev := none, next := some 2, val := 0 },
              Slot.Used { prev := some 2, next := none, val := 40 },
              Slot.Used { prev := some 0, next := some 1, val := 30 }] }

/-- C5: slot reuse is LIFO.  General part: on any reachable state whose
free-list is non-empty, `add_first` and `add_last` place the new node
exactly at the free-list head index `f` and pop it (the new free-list head
becomes the index stored in slot `f`).  Concrete part: after
`add_last 10; add_last 20; add_last 30; remove_first; remove_first` the
most recently freed slot `1` (vacated by removing `20`) sits at the
free-list head ahead of slot `0` (vacated by removing `10`); `add_last 40`
reuses slot `1` first, `add_first 0` then reuses slot `0`, and traversal
yields `0, 30, 40`. -/
theorem free_list_lifo_reuse :
    (∀ (T : Type) (ops : List (Op T)) (l : LinkedList T),
      runOps (LinkedList.new T) ops = some l →
      ∀ f, l.free = some f →
        (∀ v, ∃ l2 nf, l.add_first v = some l2 ∧
          l.slots[f]? = some (Slot.Free nf) ∧ l2.free = nf ∧
          ∃ n, l2.slots[f]? = some (Slot.Used n) ∧ n.val = v) ∧
        (∀ v, ∃ l2 nf, l.add_last v = some l2 ∧
          l.slots[f]? = some (Slot.Free nf) ∧ l2.free = nf ∧
          ∃ n, l2.slots[f]? = some (Slot.Used n) ∧ n.val = v)) ∧
    (runOps (LinkedList.new Nat) [Op.addLast 10, Op.addLast 20, Op.addLast 30,
        Op.removeFirst, Op.removeFirst] = some sampleFreed ∧
      sampleFreed.free = some 1 ∧ sampleFreed.slots[1]? = some (Slot.Free (some 0)) ∧
      sampleFreed.add_last 40 = some sampleSix ∧
      sampleSix.slots[1]? = some (Slot.Used { prev := some 2, next := none, val := 40 }) ∧
      sampleSix.free = some 0 ∧
      sampleSix.add_first 0 = some sampleSeven ∧
      sampleSeven.slots[0]? = some (Slot.Used { prev := none, next := some 2, val := 0 }) ∧
      sampleSeven.free = none ∧
      sampleSeven.iterAll = some [0, 30, 40]) := by
  constructor
  · intro T ops l hreach f hfree
    obtain ⟨ps, fs, hinv⟩ := reachable_inv ⟨ops, hreach⟩
    constructor
    · intro v
      obtain ⟨j, l2, hrun, hinv2, hhd, -, -, hpop⟩ := add_first_spec hinv v
      obtain ⟨hj, nf, hnf, hfree2⟩ := hpop f hfree
      have hch2 := hinv2.chain
      rw [hhd] at hch2
      obtain ⟨n, ps2, hps, hget, -, -⟩ := hch2.some_inv
      have hval : n.val = v ∧ ps2 = ps := by simpa using hps.symm
      exact ⟨l2, nf, hrun, hnf, hfree2, n, hj ▸ hget, hval.1⟩
    · intro v
      obtain ⟨j, l2, hrun, hinv2, htl, -, -, hpop⟩ := add_last_spec hinv v
      obtain ⟨hj, nf, hnf, hfree2⟩ := hpop f hfree
      rcases hinv2.chain.last_spec with ⟨hps, -, hlast⟩ | ⟨qs, t2, m, hps, hlast, hget, -⟩
      · rw [htl] at hlast
        exact absurd hlast (by simp)
      · rw [htl] at hlast
        have ht2 : j = t2 := Option.some.inj hlast
        refine ⟨l2, nf, hrun, hnf, hfree2, m, ?_, ?_⟩
        · rw [← hj, ht2]
          exact hget
        · have hx : ((ps ++ [(j, v)]).getLast?) = some (t2, m.val) := by
            rw [hps]
            simp
          rw [List.getLast?_concat] at hx
          exact (congrArg Prod.snd (Option.some.inj hx)).symm
  · exact ⟨by decide, rfl, by decide, by decide, by decide, rfl, by decide, by decide, rfl,
      by decide⟩

/-- Witness for C5's quantified part: on the concrete freed state the
free-list head is slot `1`; `add_last 7` must land there. -/
theorem free_list_lifo_reuse_witness :
    ∃ l2 nf, sampleFreed.add_last 7 = some l2 ∧
      sampleFreed.slots[1]? = some (Slot.Free nf) ∧ l2.free = nf ∧
      ∃ n, l2.slots[1]? = some (Slot.Used n) ∧ n.val = 7 :=
  ((free_list_lifo_reuse.1 Nat
    [Op.addLast 10, Op.addLast 20, Op.addLast 30, Op.removeFirst, Op.removeFirst]
    sampleFreed (by decide) 1 rfl).2 7)

/-- C6: slot indices are recycled, not leaked.  From any reachable state,
removing all `size` elements (any mix of `remove_first`/`remove_last`)
leaves the store length unchanged, and re-adding the same number of
elements (any mix of `add_first`/`add_last`) still leaves it unchanged —
so the store never exceeds the high-water mark it had before the
removals. -/
theorem slots_recycled_no_growth (T : Type) (ops : List (Op T)) (l : LinkedList T)
    (hreach : runOps (LinkedList.new T) ops = some l)
    (dels adds2 : List (Op T))
    (hdel : ∀ op ∈ dels, op.isRemove = true) (hdlen : dels.length = l.size)
    (hadd : ∀ op ∈ adds2, op.isAdd = true) (halen : adds2.length = l.size) :
    ∃ l1 l2, runOps l dels = some l1 ∧ l1.size = 0 ∧
      l1.slots.length = l.slots.length ∧
      runOps l1 adds2 = some l2 ∧ l2.slots.length = l.slots.length := by
  obtain ⟨ps, fs, hinv⟩ := reachable_inv ⟨ops, hreach⟩
  have hps_len : l.size = ps.length := hinv.size_eq
  obtain ⟨l1, ps1, fs1, hrun1, hinv1, hlen1, hcnt⟩ :=
    runOps_removes hinv dels hdel (by omega)
  have hps1len : ps1.length = 0 := by omega
  have hsize1 : l1.size = 0 := by rw [hinv1.size_eq]; omega
  have hfs1len : adds2.length ≤ fs1.length := by
    have h1 := hinv1.length_eq
    have h2 := hinv.length_eq
    omega
  obtain ⟨l2, ps2, fs2, hrun2, hinv2, hlen2⟩ := runOps_adds hinv1 adds2 hadd hfs1len
  exact ⟨l1, l2, hrun1, hsize1, hlen1, hrun2, by rw [hlen2, hlen1]⟩

/-- Witness for C6: drain the two-element state and refill it with two
values; the store keeps its two slots. -/
theorem slots_recycled_no_growth_witness :
    ∃ l1 l2, runOps sampleTwo [Op.removeFirst, Op.removeFirst] = some l1 ∧ l1.size = 0 ∧
      l1.slots.length = sampleTwo.slots.length ∧
      runOps l1 [Op.addFirst 5, Op.addLast 6] = some l2 ∧
      l2.slots.length = sampleTwo.slots.length :=
  slots_recycled_no_growth Nat [Op.addLast 1, Op.addLast 2] sampleTwo (by decide)
    [Op.removeFirst, Op.removeFirst] [Op.addFirst 5, Op.addLast 6]
    (by decide) (by decide) (by decide) (by decide)

/-- C7: on every reachable state, `is_empty()` holds iff `size() = 0` iff
`get_first()` and `get_last()` both return absence. -/
theorem is_empty_iff_size_zero_iff_gets_absent (T : Type) (ops : List (Op T))
    (l : LinkedList T) (hreach : runOps (LinkedList.new T) ops = some l) :
    (l.is_empty = true ↔ l.size = 0) ∧
    (l.is_empty = true ↔ (l.get_first = some none ∧ l.get_last = some none)) := by
  obtain ⟨ps, fs, hinv⟩ := reachable_inv ⟨ops, hreach⟩
  have hempty : l.is_empty = true ↔ ps = [] := by
    rcases hhead : l.head with _ | h0
    · have hch := hinv.chain
      rw [hhead] at hch
      simp [LinkedList.is_empty, hhead, hch.none_inv.1]
    · have hch := hinv.chain
      rw [hhead] at hch
      obtain ⟨n, ps2, hps, -, -, -⟩ := hch.some_inv
      simp [LinkedList.is_empty, hhead, hps]
  constructor
  · rw [hempty, hinv.size_eq]
    exact ⟨fun h => by simp [h], fun h => List.length_eq_zero.mp h⟩
  · rw [hempty, get_first_spec hinv, get_last_spec hinv]
    constructor
    · intro h
      subst h
      simp
    · rintro ⟨h1, -⟩
      have hh : (ps.map Prod.snd).head? = none := by simpa using h1
      have h2 : ps.map Prod.snd = [] := by
        cases hps : ps.map Prod.snd with
        | nil => rfl
        | cons a as => rw [hps] at hh; simp at hh
      simpa using h2

/-- Witness for C7 at the concrete two-element state. -/
theorem is_empty_iff_witness :
    (sampleTwo.is_empty = true ↔ sampleTwo.size = 0) ∧
    (sampleTwo.is_empty = true ↔
      (sampleTwo.get_first = some none ∧ sampleTwo.get_last = some none)) :=
  is_empty_iff_size_zero_iff_gets_absent Nat [Op.addLast 1, Op.addLast 2] sampleTwo (by decide)

/-- C8: every reachable state satisfies the chain invariants: following
`next` from `head` visits a sequence of `Used` slots ending exactly at
`tail` (the `Chain` predicate: the first node has `prev = none`, every
later node's `prev` points back at its predecessor, the final node has
`next = none`), the visited count is `size`, no slot index repeats, and
`head`/`tail` are `none` exactly when `size = 0`. -/
theorem chain_invariants_hold (T : Type) (ops : List (Op T)) (l : LinkedList T)
    (hreach : runOps (LinkedList.new T) ops = some l) :
    ∃ ps : List (Nat × T), Chain l.slots none l.head ps l.tail ∧
      l.size = ps.length ∧ (ps.map Prod.fst).Nodup ∧
      (l.head = none ↔ l.size = 0) ∧ (l.tail = none ↔ l.size = 0) := by
  obtain ⟨ps, fs, hinv⟩ := reachable_inv ⟨ops, hreach⟩
  have hsize := hinv.size_eq
  have hhead : l.head = none ↔ ps = [] := by
    constructor
    · intro hh
      have hch := hinv.chain
      rw [hh] at hch
      exact hch.none_inv.1
    · intro hh
      have hch := hinv.chain
      rw [hh] at hch
      exact hch.nil_inv.1
  have htail : l.tail = none ↔ ps = [] := by
    constructor
    · intro ht
      rcases hinv.chain.last_spec with ⟨hps, -, -⟩ | ⟨qs, t, nt, hps, hlast, -, -⟩
      · exact hps
      · rw [ht] at hlast
        exact absurd hlast (by simp)
    · intro hh
      have hch := hinv.chain
      rw [hh] at hch
      exact hch.nil_inv.2
  refine ⟨ps, hinv.chain, hsize, hinv.ps_nodup, ?_, ?_⟩
  · rw [hhead, hsize]
    exact ⟨fun h => by simp [h], fun h => List.length_eq_zero.mp h⟩
  · rw [htail, hsize]
    exact ⟨fun h => by simp [h], fun h => List.length_eq_zero.mp h⟩

/-- Witness for C8 at the concrete two-element state. -/
theorem chain_invariants_hold_witness :
    ∃ ps : List (Nat × Nat), Chain sampleTwo.slots none sampleTwo.head ps sampleTwo.tail ∧
      sampleTwo.size = ps.length ∧ (ps.map Prod.fst).Nodup ∧
      (sampleTwo.head = none ↔ sampleTwo.size = 0) ∧
      (sampleTwo.tail = none ↔ sampleTwo.size = 0) :=
  chain_invariants_hold Nat [Op.addLast 1, Op.addLast 2] sampleTwo (by decide)

/-- C9: `remove_first()` and `remove_last()` on a reachable empty list
both return absence and the state itself, entirely unchanged (same
`size`, `head`, `tail`, `free` and store). -/
theorem remove_on_empty_identity (T : Type) (ops : List (Op T)) (l : LinkedList T)
    (hreach : runOps (LinkedList.new T) ops = some l) (hemp : l.is_empty = true) :
    l.remove_first = some (none, l) ∧ l.remove_last = some (none, l) := by
  obtain ⟨ps, fs, hinv⟩ := reachable_inv ⟨ops, hreach⟩
  have hhead : l.head = none := by
    simpa [LinkedList.is_empty, Option.isNone_iff_eq_none] using hemp
  have hch := hinv.chain
  rw [hhead] at hch
  obtain ⟨hps, -⟩ := hch.none_inv
  exact ⟨((remove_first_spec hinv).1 hps).2, ((remove_last_spec hinv).1 hps).2⟩

/-- Witness for C9 at the fresh empty list. -/
theorem remove_on_empty_identity_witness :
    (LinkedList.new Nat).remove_first = some (none, LinkedList.new Nat) ∧
    (LinkedList.new Nat).remove_last = some (none, LinkedList.new Nat) :=
  remove_on_empty_identity Nat [] (LinkedList.new Nat) rfl rfl

/-- C10: on every reachable non-empty state, `get_first()` returns exactly
the first value a fresh full traversal produces and `get_last()` exactly
its last value. -/
theorem gets_match_traversal_ends (T : Type) (ops : List (Op T)) (l : LinkedList T)
    (hreach : runOps (LinkedList.new T) ops = some l) (hne : l.is_empty = false) :
    ∃ xs v w, l.iterAll = some xs ∧ l.get_first = some (some v) ∧
      l.get_last = some (some w) ∧ xs.head? = some v ∧ xs.getLast? = some w := by
  obtain ⟨ps, fs, hinv⟩ := reachable_inv ⟨ops, hreach⟩
  rcases hh : l.head with _ | h0
  · rw [LinkedList.is_empty, hh] at hne
    simp at hne
  · have hch := hinv.chain
    rw [hh] at hch
    obtain ⟨n, ps2, hps, -, -, -⟩ := hch.some_inv
    rcases hgl : (ps.map Prod.snd).getLast? with _ | w
    · rw [List.getLast?_eq_none_iff] at hgl
      rw [hps] at hgl
      simp at hgl
    · refine ⟨ps.map Prod.snd, n.val, w, iterAll_spec hinv, ?_, ?_, ?_, hgl⟩
      · rw [get_first_spec hinv, hps]
        simp
      · rw [get_last_spec hinv, hgl]
      · rw [hps]
        simp

/-- Witness for C10 at the concrete two-element state. -/
theorem gets_match_traversal_ends_witness :
    ∃ xs v w, sampleTwo.iterAll = some xs ∧ sampleTwo.get_first = some (some v) ∧
      sampleTwo.get_last = some (some w) ∧ xs.head? = some v ∧ xs.getLast? = some w :=
  gets_match_traversal_ends Nat [Op.addLast 1, Op.addLast 2] sampleTwo (by decide) rfl

end ArenaList
